import Mathlib

/-!
Shallow embedding of `src/hash_chain_transcript.rs` (renegade-fi/merlin),
a Fiat-Shamir transcript built on a Keccak256 hash chain.

Bytes are modelled as `Nat` (values below 256 where it matters), byte
strings as `List Nat`.  The Keccak256 primitive is external to the
repository and is treated, as the specification directs, as an opaque
fixed-output-length hash: every definition is parameterised over a
`HashFn`, a function from byte strings to 32-byte strings.  Fallible
operations (Rust panics: the oversized-label assert in `pad_label` and
the exact-length `copy_from_slice` into `dest`) return `Option`.
-/

namespace HashChain

/-- The external hash primitive: an arbitrary function from byte strings to
32-byte strings whose output entries are bytes.  `keccak256` in the source
instantiates this with tiny-keccak's Keccak-256. -/
structure HashFn where
  hash : List Nat → List Nat
  hash_len : ∀ b, (hash b).length = 32
  hash_bytes : ∀ b, ∀ x ∈ hash b, x < 256

/-- `encode_u64_as_u256_le` from the source: a 32-byte buffer of zeros with
the 64-bit value written little-endian into its first 8 bytes
(`LittleEndian::write_u64(&mut buf, x)` on `buf = [0; 32]`). -/
def encode_u64_as_u256_le (x : Nat) : List Nat :=
  ((List.range 8).map fun i => x / 256 ^ i % 256) ++ List.replicate 24 0

/-- The body of `pad_label` after the length assert: left-pad the label with
zeros to 32 bytes (`padded_label[32 - label.len()..].copy_from_slice(label)`
on a zero buffer), then reverse the whole 32-byte buffer. -/
def pad_core (label : List Nat) : List Nat :=
  (List.replicate (32 - label.length) 0 ++ label).reverse

/-- `pad_label` from the source; `none` models the
`assert!(label.len() <= 32, ...)` panic. -/
def pad_label (label : List Nat) : Option (List Nat) :=
  if label.length ≤ 32 then some (pad_core label) else none

/-- Rust's `dest.copy_from_slice(&src)`: copies `src` over `dest`, panicking
(`none`) when the two lengths differ. -/
def copy_from_slice (dest src : List Nat) : Option (List Nat) :=
  if dest.length = src.length then some src else none

/-- `HashChainTranscript` from the source: the sole field is the 32-byte
running state. -/
structure HashChainTranscript where
  state : List Nat
  deriving DecidableEq

/-- `HashChainTranscript::new`: seed the state with the hash of the padded
label. -/
def HashChainTranscript.new (H : HashFn) (label : List Nat) :
    Option HashChainTranscript :=
  (pad_label label).map fun p => ⟨H.hash p⟩

/-- `HashChainTranscript::append_message`: hash
`message ‖ pad_label(label) ‖ state` into the state. -/
def HashChainTranscript.append_message (H : HashFn) (t : HashChainTranscript)
    (label message : List Nat) : Option HashChainTranscript :=
  (pad_label label).map fun p => ⟨H.hash (message ++ p ++ t.state)⟩

/-- `HashChainTranscript::append_u64`: absorb the 32-byte little-endian
encoding of `x` via `append_message`. -/
def HashChainTranscript.append_u64 (H : HashFn) (t : HashChainTranscript)
    (label : List Nat) (x : Nat) : Option HashChainTranscript :=
  t.append_message H label (encode_u64_as_u256_le x)

/-- `HashChainTranscript::challenge_bytes`: hash `pad_label(label) ‖ state`
into `output`, overwrite the state with `output`, and copy `output` over
`dest` (the copy panics when `dest` is not 32 bytes long).  Returns the
updated transcript and the bytes written to `dest`. -/
def HashChainTranscript.challenge_bytes (H : HashFn) (t : HashChainTranscript)
    (label dest : List Nat) : Option (HashChainTranscript × List Nat) :=
  match pad_label label with
  | none => none
  | some p =>
    let output := H.hash (p ++ t.state)
    (copy_from_slice dest output).map fun d => (⟨output⟩, d)

/-- `HashChainTranscriptRngBuilder` from the source. -/
structure HashChainTranscriptRngBuilder where
  transcript : HashChainTranscript

/-- `HashChainTranscript::build_rng`: clone the transcript into a builder;
the original transcript is not touched. -/
def HashChainTranscript.build_rng (t : HashChainTranscript) :
    HashChainTranscriptRngBuilder :=
  ⟨t⟩

/-- `HashChainTranscriptRngBuilder::rekey_with_witness_bytes`: absorb the
witness into the cloned transcript. -/
def HashChainTranscriptRngBuilder.rekey_with_witness_bytes (H : HashFn)
    (b : HashChainTranscriptRngBuilder) (label witness : List Nat) :
    Option HashChainTranscriptRngBuilder :=
  (b.transcript.append_message H label witness).map fun t => ⟨t⟩

/-- `HashChainTranscriptRng` from the source. -/
structure HashChainTranscriptRng where
  transcript : HashChainTranscript
  deriving DecidableEq

/-- The byte string of the label literal `b"rng"`. -/
def lbl_rng : List Nat := [114, 110, 103]

/-- The byte string of the label literal `b"next_u32"`. -/
def lbl_next_u32 : List Nat := [110, 101, 120, 116, 95, 117, 51, 50]

/-- The byte string of the label literal `b"next_u64"`. -/
def lbl_next_u64 : List Nat := [110, 101, 120, 116, 95, 117, 54, 52]

/-- `HashChainTranscriptRngBuilder::finalize`: the 32 bytes drawn from the
external randomness source are passed in as `random_bytes`; they are
absorbed under label `b"rng"` and the transcript is wrapped into an RNG. -/
def HashChainTranscriptRngBuilder.finalize (H : HashFn)
    (b : HashChainTranscriptRngBuilder) (random_bytes : List Nat) :
    Option HashChainTranscriptRng :=
  (b.transcript.append_message H lbl_rng random_bytes).map fun t => ⟨t⟩

/-- Little-endian byte-string decoding, as in `u32::from_le_bytes` /
`u64::from_le_bytes` applied to the leading bytes of the challenge output. -/
def from_le_bytes (l : List Nat) : Nat :=
  l.foldr (fun b acc => b + 256 * acc) 0

/-- Little-endian encoding of `x` into `k` bytes, as in `u32::to_le_bytes`
and `u64::to_le_bytes`. -/
def to_le_bytes (k x : Nat) : List Nat :=
  (List.range k).map fun i => x / 256 ^ i % 256

/-- `HashChainTranscriptRng::next_u32` (RngCore impl): draw a 32-byte
challenge under label `b"next_u32"` into a zeroed 32-byte buffer and
decode the first 4 bytes little-endian. -/
def HashChainTranscriptRng.next_u32 (H : HashFn)
    (r : HashChainTranscriptRng) : Option (HashChainTranscriptRng × Nat) :=
  (r.transcript.challenge_bytes H lbl_next_u32 (List.replicate 32 0)).map
    fun p => (⟨p.1⟩, from_le_bytes (p.2.take 4))

/-- `HashChainTranscriptRng::next_u64` (RngCore impl): draw a 32-byte
challenge under label `b"next_u64"` into a zeroed 32-byte buffer and
decode the first 8 bytes little-endian. -/
def HashChainTranscriptRng.next_u64 (H : HashFn)
    (r : HashChainTranscriptRng) : Option (HashChainTranscriptRng × Nat) :=
  (r.transcript.challenge_bytes H lbl_next_u64 (List.replicate 32 0)).map
    fun p => (⟨p.1⟩, from_le_bytes (p.2.take 8))

/-- `HashChainTranscriptRng::fill_bytes` delegates to
`rand_core::impls::fill_bytes_via_next` (rand_core 0.6), embedded here from
that crate's source: drain `dest` in 8-byte chunks via `next_u64`
(`to_le_bytes` of each drawn value); for a remainder of more than 4 bytes
draw one more `next_u64` and truncate, for a remainder of 1 to 4 bytes draw
a `next_u32` and truncate.  `n` is `dest.len()`; the result is the final
RNG and the bytes written to `dest`. -/
def HashChainTranscriptRng.fill_bytes (H : HashFn)
    (r : HashChainTranscriptRng) : Nat → Option (HashChainTranscriptRng × List Nat)
  | n + 8 =>
    match r.next_u64 H with
    | none => none
    | some (r1, x) =>
      (fill_bytes H r1 n).map fun p => (p.1, to_le_bytes 8 x ++ p.2)
  | n + 5 =>
    (r.next_u64 H).map fun p => (p.1, (to_le_bytes 8 p.2).take (n + 5))
  | n + 1 =>
    (r.next_u32 H).map fun p => (p.1, (to_le_bytes 4 p.2).take (n + 1))
  | 0 => some (r, [])

/-- A concrete instance of the opaque hash interface used to evaluate the
embedding on closed inputs: the first output byte records the input length
modulo 256, the rest are zero. -/
def lenHash : HashFn where
  hash b := b.length % 256 :: List.replicate 31 0
  hash_len _ := rfl
  hash_bytes b x hx := by
    rcases List.mem_cons.mp hx with h | h
    · exact h ▸ Nat.mod_lt _ (by norm_num)
    · have hz : x = 0 := List.eq_of_mem_replicate h
      omega

/-- A second concrete instance of the opaque hash interface: the first
output byte records the first input byte modulo 256, the rest are zero. -/
def headHash : HashFn where
  hash b := b.headD 0 % 256 :: List.replicate 31 0
  hash_len _ := rfl
  hash_bytes b x hx := by
    rcases List.mem_cons.mp hx with h | h
    · exact h ▸ Nat.mod_lt _ (by norm_num)
    · have hz : x = 0 := List.eq_of_mem_replicate h
      omega

/-- One transcript operation of the public absorb/squeeze surface, with its
label and data arguments. -/
inductive Op where
  | appendMessage (label msg : List Nat)
  | appendU64 (label : List Nat) (x : Nat)
  | challengeBytes (label : List Nat)

/-- Small-step relation on transcripts: `Step H t op t2 out` holds when
executing `op` on transcript `t` succeeds, leaving transcript `t2` and
emitting challenge bytes `out` (`none` for absorptions).  Challenges are
drawn into a 32-byte destination buffer, as every caller in the source
does. -/
inductive Step (H : HashFn) :
    HashChainTranscript → Op → HashChainTranscript → Option (List Nat) → Prop where
  | appendMessage (t : HashChainTranscript) (label msg : List Nat)
      (t2 : HashChainTranscript)
      (h : t.append_message H label msg = some t2) :
      Step H t (.appendMessage label msg) t2 none
  | appendU64 (t : HashChainTranscript) (label : List Nat) (x : Nat)
      (t2 : HashChainTranscript)
      (h : t.append_u64 H label x = some t2) :
      Step H t (.appendU64 label x) t2 none
  | challengeBytes (t : HashChainTranscript) (label : List Nat)
      (t2 : HashChainTranscript) (out : List Nat)
      (h : t.challenge_bytes H label (List.replicate 32 0) = some (t2, out)) :
      Step H t (.challengeBytes label) t2 (some out)

/-- Execution of a list of operations, collecting every emitted challenge
output in order. -/
inductive Steps (H : HashFn) :
    HashChainTranscript → List Op → HashChainTranscript → List (List Nat) → Prop where
  | nil (t : HashChainTranscript) : Steps H t [] t []
  | cons (t : HashChainTranscript) (op : Op) (t2 : HashChainTranscript)
      (out : Option (List Nat)) (ops : List Op) (tf : HashChainTranscript)
      (outs : List (List Nat))
      (h1 : Step H t op t2 out) (h2 : Steps H t2 ops tf outs) :
      Steps H t (op :: ops) tf (out.toList ++ outs)

/-- A world holding a live transcript `t1` alongside an already-finalized
`HashChainTranscriptRng`, to express fork isolation. -/
structure World where
  t1 : HashChainTranscript
  rng : HashChainTranscriptRng

/-- A world operation: either an `append_message` on the live transcript, or
a `next_u64` draw from the finalized RNG. -/
inductive WOp where
  | appendT1 (label msg : List Nat)
  | draw

/-- One world step; draws emit their value, appends emit nothing. -/
def wstep (H : HashFn) (w : World) : WOp → Option (World × List Nat)
  | .appendT1 label msg =>
    (w.t1.append_message H label msg).map fun t => (⟨t, w.rng⟩, [])
  | .draw =>
    (w.rng.next_u64 H).map fun p => (⟨w.t1, p.1⟩, [p.2])

/-- Execution of a list of world operations, collecting every drawn value. -/
def runWorld (H : HashFn) (w : World) : List WOp → Option (World × List Nat)
  | [] => some (w, [])
  | op :: ops =>
    match wstep H w op with
    | none => none
    | some (w2, out) => (runWorld H w2 ops).map fun p => (p.1, out ++ p.2)

/-- Stated from the spec's words for comparison with the source's
`encode_u64_as_u256_le`: a 32-byte buffer with the 64-bit value written in
little-endian byte order into bytes 0..8 and bytes 8..32 all zero. -/
def spec_u64_encoding (x : Nat) : List Nat :=
  (List.range 32).map fun i => if i < 8 then x / 256 ^ i % 256 else 0

/-- Stated from the spec's words for comparison with the source's
`fill_bytes`: repeatedly draw full 32-byte blocks via the challenge
mechanism (the spec says conceptually via `next_u32` challenge calls) until
`dest` is filled, truncating only the final block. -/
def claimed_fill_bytes (H : HashFn) (r : HashChainTranscriptRng) :
    Nat → Option (HashChainTranscriptRng × List Nat)
  | n + 32 =>
    match r.transcript.challenge_bytes H lbl_next_u32 (List.replicate 32 0) with
    | none => none
    | some (t2, out) =>
      (claimed_fill_bytes H ⟨t2⟩ n).map fun p => (p.1, out ++ p.2)
  | n + 1 =>
    (r.transcript.challenge_bytes H lbl_next_u32 (List.replicate 32 0)).map
      fun p => (⟨p.1⟩, p.2.take (n + 1))
  | 0 => some (r, [])

/-- The chain of `k` consecutive `next_u64`-labelled challenge draws
starting from transcript `t`: returns the final transcript and the
concatenation of the first-8-byte prefixes of the successive 32-byte
challenge outputs. -/
def u64_block_chain (H : HashFn) (t : HashChainTranscript) :
    Nat → HashChainTranscript × List Nat
  | 0 => (t, [])
  | k + 1 =>
    let out := H.hash (pad_core lbl_next_u64 ++ t.state)
    let rest := u64_block_chain H ⟨out⟩ k
    (rest.1, out.take 8 ++ rest.2)

/-- Closed-form description of what `fill_bytes` writes for a destination
of length `n`, starting from transcript `t`: `n / 8` full 8-byte blocks
(the prefixes of chained `next_u64`-labelled challenge outputs) followed,
when `n % 8` is nonzero, by a truncated tail drawn from one more challenge:
a `next_u64`-labelled one when more than 4 bytes remain, a
`next_u32`-labelled one otherwise. -/
def fill_bytes_blocks_spec (H : HashFn) (t : HashChainTranscript) (n : Nat) :
    HashChainTranscript × List Nat :=
  let c := u64_block_chain H t (n / 8)
  if n % 8 = 0 then c
  else
    let lbl := if 4 < n % 8 then lbl_next_u64 else lbl_next_u32
    let out := H.hash (pad_core lbl ++ c.1.state)
    (⟨out⟩, c.2 ++ out.take (n % 8))

/-- Reference decomposition of a world run: the live transcript's evolution
as a function of the appends alone (draws skipped). -/
def runT1 (H : HashFn) (a : HashChainTranscript) :
    List WOp → Option HashChainTranscript
  | [] => some a
  | WOp.appendT1 label msg :: ops =>
    match a.append_message H label msg with
    | none => none
    | some a2 => runT1 H a2 ops
  | WOp.draw :: ops => runT1 H a ops

/-- Reference decomposition of a world run: the RNG's evolution and outputs
as a function of the draws alone (appends skipped); each draw hashes
`PaddedLabel(next_u64) ‖ state` and emits the little-endian decoding of the
first 8 output bytes. -/
def runRng (H : HashFn) (r : HashChainTranscriptRng) :
    List WOp → HashChainTranscriptRng × List Nat
  | [] => (r, [])
  | WOp.appendT1 _ _ :: ops => runRng H r ops
  | WOp.draw :: ops =>
    let out := H.hash (pad_core lbl_next_u64 ++ r.transcript.state)
    let rest := runRng H ⟨⟨out⟩⟩ ops
    (rest.1, from_le_bytes (out.take 8) :: rest.2)

/-! ## Basic characterizations of the padding and the operations -/

theorem pad_core_rev (label : List Nat) :
    pad_core label = label.reverse ++ List.replicate (32 - label.length) 0 := by
  simp [pad_core, List.reverse_append, List.reverse_replicate]

theorem pad_label_some (label : List Nat) (h : label.length ≤ 32) :
    pad_label label = some (pad_core label) := by
  simp [pad_label, h]

theorem append_message_some (H : HashFn) (t : HashChainTranscript)
    (label msg : List Nat) (h : label.length ≤ 32) :
    t.append_message H label msg =
      some ⟨H.hash (msg ++ pad_core label ++ t.state)⟩ := by
  simp [HashChainTranscript.append_message, pad_label_some label h]

theorem challenge_bytes_some (H : HashFn) (t : HashChainTranscript)
    (label dest : List Nat) (h : label.length ≤ 32) (hd : dest.length = 32) :
    t.challenge_bytes H label dest =
      some (⟨H.hash (pad_core label ++ t.state)⟩,
        H.hash (pad_core label ++ t.state)) := by
  simp [HashChainTranscript.challenge_bytes, pad_label_some label h,
    copy_from_slice, hd, H.hash_len]

theorem next_u32_eq (H : HashFn) (r : HashChainTranscriptRng) :
    r.next_u32 H =
      some (⟨⟨H.hash (pad_core lbl_next_u32 ++ r.transcript.state)⟩⟩,
        from_le_bytes ((H.hash (pad_core lbl_next_u32 ++ r.transcript.state)).take 4)) := by
  unfold HashChainTranscriptRng.next_u32
  rw [challenge_bytes_some H r.transcript lbl_next_u32 (List.replicate 32 0)
    (by decide) (by simp)]
  rfl

theorem next_u64_eq (H : HashFn) (r : HashChainTranscriptRng) :
    r.next_u64 H =
      some (⟨⟨H.hash (pad_core lbl_next_u64 ++ r.transcript.state)⟩⟩,
        from_le_bytes ((H.hash (pad_core lbl_next_u64 ++ r.transcript.state)).take 8)) := by
  unfold HashChainTranscriptRng.next_u64
  rw [challenge_bytes_some H r.transcript lbl_next_u64 (List.replicate 32 0)
    (by decide) (by simp)]
  rfl

/-! ## C2: what `pad_label` writes where -/

/-- Claim C2 as stated is false on the code: `pad_label [0, 1]` places the
label bytes reversed, `[1, 0, ...]`, not in original order `[0, 1, ...]`. -/
theorem pad_label_order_counterexample :
    pad_label [0, 1] = some (1 :: 0 :: List.replicate 30 0) ∧
    pad_label [0, 1] ≠ some (0 :: 1 :: List.replicate 30 0) := by decide

/-- Claim C2 (amended): for a label of length L at most 32, `pad_label`
returns a 32-byte buffer whose first L bytes are the label's bytes in
reversed order and whose remaining 32 - L bytes are zero. -/
theorem pad_label_reversed_then_zeros (label : List Nat)
    (h : label.length ≤ 32) :
    pad_label label =
      some (label.reverse ++ List.replicate (32 - label.length) 0) ∧
    (label.reverse ++ List.replicate (32 - label.length) 0).length = 32 := by
  refine ⟨by rw [pad_label_some label h, pad_core_rev], ?_⟩
  simp
  omega

/-- Witness for `pad_label_reversed_then_zeros` at the label `[1, 2]`. -/
theorem pad_label_reversed_then_zeros_witness :
    pad_label [1, 2] =
      some (([1, 2] : List Nat).reverse ++
        List.replicate (32 - ([1, 2] : List Nat).length) 0) ∧
    (([1, 2] : List Nat).reverse ++
      List.replicate (32 - ([1, 2] : List Nat).length) 0).length = 32 :=
  pad_label_reversed_then_zeros [1, 2] (by decide)

/-! ## C10: `pad_label` ignores leading zero bytes -/

/-- Claim C10: `pad_label` is not injective: a label of length below 32 and
the same label prefixed with a `0x00` byte are distinct yet pad identically,
so `new`, `append_message`, `append_u64` and `challenge_bytes` cannot tell
them apart. -/
theorem pad_label_not_injective (H : HashFn) (t : HashChainTranscript)
    (label msg dest : List Nat) (x : Nat) (h : label.length < 32) :
    pad_label (0 :: label) = pad_label label ∧
    (0 :: label) ≠ label ∧
    HashChainTranscript.new H (0 :: label) = HashChainTranscript.new H label ∧
    t.append_message H (0 :: label) msg = t.append_message H label msg ∧
    t.append_u64 H (0 :: label) x = t.append_u64 H label x ∧
    t.challenge_bytes H (0 :: label) dest = t.challenge_bytes H label dest := by
  have hpadc : pad_core (0 :: label) = pad_core label := by
    unfold pad_core
    congr 1
    have h1 : (32 : Nat) - (0 :: label).length = 31 - label.length := by
      simp
    rw [h1, show (32 : Nat) - label.length = (31 - label.length) + 1 by omega,
      List.replicate_succ']
    simp
  have hpad : pad_label (0 :: label) = pad_label label := by
    rw [pad_label_some (0 :: label) (by simp; omega),
      pad_label_some label (by omega), hpadc]
  have hne : (0 :: label) ≠ label := by
    intro heq
    have := congrArg List.length heq
    simp at this
  refine ⟨hpad, hne, ?_, ?_, ?_, ?_⟩
  · unfold HashChainTranscript.new; rw [hpad]
  · unfold HashChainTranscript.append_message; rw [hpad]
  · unfold HashChainTranscript.append_u64 HashChainTranscript.append_message
    rw [hpad]
  · unfold HashChainTranscript.challenge_bytes; rw [hpad]

/-- Witness for `pad_label_not_injective` at label `[7]`. -/
theorem pad_label_not_injective_witness :
    pad_label (0 :: [7]) = pad_label [7] ∧
    (0 :: [7]) ≠ ([7] : List Nat) ∧
    HashChainTranscript.new lenHash (0 :: [7]) =
      HashChainTranscript.new lenHash [7] ∧
    HashChainTranscript.append_message lenHash ⟨List.replicate 32 0⟩
      (0 :: [7]) [] =
      HashChainTranscript.append_message lenHash ⟨List.replicate 32 0⟩ [7] [] ∧
    HashChainTranscript.append_u64 lenHash ⟨List.replicate 32 0⟩
      (0 :: [7]) 0 =
      HashChainTranscript.append_u64 lenHash ⟨List.replicate 32 0⟩ [7] 0 ∧
    HashChainTranscript.challenge_bytes lenHash ⟨List.replicate 32 0⟩
      (0 :: [7]) (List.replicate 32 0) =
      HashChainTranscript.challenge_bytes lenHash ⟨List.replicate 32 0⟩ [7]
        (List.replicate 32 0) :=
  pad_label_not_injective lenHash ⟨List.replicate 32 0⟩ [7] [] (List.replicate 32 0)
    0 (by decide)

/-! ## C3: the absorption concatenation order -/

/-- Claim C3: `append_message` hashes `message ‖ PaddedLabel(label) ‖ state`
in exactly that order into the state, and the state is the transcript's only
component, so nothing else changes. -/
theorem append_message_concat_order (H : HashFn) (t : HashChainTranscript)
    (label msg : List Nat) (h : label.length ≤ 32) :
    t.append_message H label msg =
      some ⟨H.hash (msg ++ pad_core label ++ t.state)⟩ :=
  append_message_some H t label msg h

/-- Witness for `append_message_concat_order` at label `[3]`, message `[9]`. -/
theorem append_message_concat_order_witness :
    HashChainTranscript.append_message lenHash ⟨List.replicate 32 0⟩ [3] [9] =
      some ⟨lenHash.hash ([9] ++ pad_core [3] ++ List.replicate 32 0)⟩ :=
  append_message_concat_order lenHash ⟨List.replicate 32 0⟩ [3] [9] (by decide)

/-! ## C7: `append_u64` and the spec's 32-byte little-endian encoding -/

/-- Claim C7: `append_u64 label x` coincides with `append_message label e`
where `e` is the 32-byte buffer holding `x` little-endian in bytes 0..8 and
zeros in bytes 8..32 (`spec_u64_encoding`, written from the spec's words). -/
theorem append_u64_eq_spec_encoding (H : HashFn) (t : HashChainTranscript)
    (label : List Nat) (x : Nat) :
    t.append_u64 H label x = t.append_message H label (spec_u64_encoding x) := by
  have henc : encode_u64_as_u256_le x = spec_u64_encoding x := by
    unfold encode_u64_as_u256_le spec_u64_encoding
    rw [show (32 : Nat) = 8 + 24 from rfl, List.range_add, List.map_append]
    rfl
  unfold HashChainTranscript.append_u64
  rw [henc]

/-! ## C1: `challenge_bytes` performs one hash step, not two -/

/-- Claim C1 as stated is false on the code: `challenge_bytes` applies the
hash once to `PaddedLabel(label) ‖ state`, so with the length-recording hash
`lenHash`, an all-zero state and the empty label, `dest` receives
`[64, 0, ...]` (the hash of the 64-byte concatenation) while the claimed
double hash `Hash(Hash(PaddedLabel(label) ‖ state))` is `[32, 0, ...]`. -/
theorem challenge_bytes_double_hash_counterexample :
    (HashChainTranscript.challenge_bytes lenHash ⟨List.replicate 32 0⟩ []
        (List.replicate 32 0)).map Prod.snd = some (64 :: List.replicate 31 0) ∧
    lenHash.hash (lenHash.hash (pad_core [] ++ List.replicate 32 0)) =
      32 :: List.replicate 31 0 ∧
    (64 :: List.replicate 31 0 : List Nat) ≠ 32 :: List.replicate 31 0 := by
  decide

/-- Claim C1 (amended): for a label of at most 32 bytes and a 32-byte
`dest`, `challenge_bytes` performs a single hash step
`output := Hash(PaddedLabel(label) ‖ state)`; afterwards both the transcript
state and `dest` equal `output`, so the bytes written to `dest` equal
`Hash(PaddedLabel(label) ‖ state)`. -/
theorem challenge_bytes_single_hash (H : HashFn) (t : HashChainTranscript)
    (label dest : List Nat) (h : label.length ≤ 32) (hd : dest.length = 32) :
    t.challenge_bytes H label dest =
      some (⟨H.hash (pad_core label ++ t.state)⟩,
        H.hash (pad_core label ++ t.state)) :=
  challenge_bytes_some H t label dest h hd

/-- Witness for `challenge_bytes_single_hash` at the empty label. -/
theorem challenge_bytes_single_hash_witness :
    HashChainTranscript.challenge_bytes lenHash ⟨List.replicate 32 0⟩ []
        (List.replicate 32 0) =
      some (⟨lenHash.hash (pad_core [] ++ List.replicate 32 0)⟩,
        lenHash.hash (pad_core [] ++ List.replicate 32 0)) :=
  challenge_bytes_single_hash lenHash ⟨List.replicate 32 0⟩ []
    (List.replicate 32 0) (by decide) (by simp)

/-! ## C6: which inputs abort which operations -/

/-- Claim C6 as stated is false on the code: the oversized label is not the
only abort condition — `challenge_bytes` with the empty label (length 0,
well within 32) and an empty destination buffer still aborts, because the
32-byte output cannot be copied into a destination of a different length. -/
theorem label_abort_not_only_counterexample :
    (([] : List Nat)).length ≤ 32 ∧
    HashChainTranscript.challenge_bytes lenHash ⟨List.replicate 32 0⟩ [] [] =
      none := by decide

/-- Claim C6 (amended): `new`, `append_message` and `append_u64` abort
exactly when the label exceeds 32 bytes (length 33 aborts, length 32 or
less succeeds); `challenge_bytes` aborts exactly when the label exceeds 32
bytes or the destination buffer is not 32 bytes long. -/
theorem abort_iff_oversized_label (H : HashFn) (t : HashChainTranscript)
    (label msg dest : List Nat) (x : Nat) :
    (HashChainTranscript.new H label = none ↔ 32 < label.length) ∧
    (t.append_message H label msg = none ↔ 32 < label.length) ∧
    (t.append_u64 H label x = none ↔ 32 < label.length) ∧
    (t.challenge_bytes H label dest = none ↔
      32 < label.length ∨ dest.length ≠ 32) := by
  rcases Nat.lt_or_ge 32 label.length with hgt | hle
  · have hp : pad_label label = none := by
      unfold pad_label
      rw [if_neg (by omega)]
    refine ⟨?_, ?_, ?_, ?_⟩ <;>
      simp [HashChainTranscript.new, HashChainTranscript.append_message,
        HashChainTranscript.append_u64, HashChainTranscript.challenge_bytes,
        hp, hgt]
  · have hp : pad_label label = some (pad_core label) := pad_label_some label hle
    have hnlt : ¬ 32 < label.length := by omega
    refine ⟨?_, ?_, ?_, ?_⟩ <;>
      simp [HashChainTranscript.new, HashChainTranscript.append_message,
        HashChainTranscript.append_u64, HashChainTranscript.challenge_bytes,
        hp, hnlt, copy_from_slice, H.hash_len]

/-! ## C9: the destination-length abort and the RNG's 32-byte buffers -/

/-- Claim C9: `challenge_bytes` aborts whenever `dest` is not exactly 32
bytes long (the 32-byte output is copied with an exact-length copy), and
`next_u32` and `next_u64`, which always pass a 32-byte buffer, never abort. -/
theorem challenge_bytes_dest_exact (H : HashFn) (t : HashChainTranscript)
    (label dest : List Nat) (r : HashChainTranscriptRng) :
    (dest.length ≠ 32 → t.challenge_bytes H label dest = none) ∧
    (r.next_u32 H).isSome ∧ (r.next_u64 H).isSome := by
  refine ⟨?_, ?_, ?_⟩
  · intro hd
    cases hp : pad_label label with
    | none => simp [HashChainTranscript.challenge_bytes, hp]
    | some p =>
      simp [HashChainTranscript.challenge_bytes, hp, copy_from_slice,
        H.hash_len, hd]
  · rw [next_u32_eq]
    rfl
  · rw [next_u64_eq]
    rfl

/-- Witness for `challenge_bytes_dest_exact`: a 1-byte destination aborts,
while `next_u32` on a concrete RNG succeeds. -/
theorem challenge_bytes_dest_exact_witness :
    HashChainTranscript.challenge_bytes lenHash ⟨List.replicate 32 0⟩ [] [0] =
      none ∧
    ((⟨⟨List.replicate 32 0⟩⟩ : HashChainTranscriptRng).next_u32 lenHash).isSome ∧
    ((⟨⟨List.replicate 32 0⟩⟩ : HashChainTranscriptRng).next_u64 lenHash).isSome :=
  ⟨(challenge_bytes_dest_exact lenHash ⟨List.replicate 32 0⟩ [] [0]
      ⟨⟨List.replicate 32 0⟩⟩).1 (by decide),
    (challenge_bytes_dest_exact lenHash ⟨List.replicate 32 0⟩ [] [0]
      ⟨⟨List.replicate 32 0⟩⟩).2⟩

/-! ## C5: determinism of the transcript state machine -/

theorem step_deterministic (H : HashFn) (t : HashChainTranscript) (op : Op)
    (t1 t2 : HashChainTranscript) (o1 o2 : Option (List Nat))
    (h1 : Step H t op t1 o1) (h2 : Step H t op t2 o2) :
    t1 = t2 ∧ o1 = o2 := by
  cases h1 with
  | appendMessage label msg ta ha =>
    cases h2 with
    | appendMessage _ _ tb hb =>
      rw [ha] at hb
      exact ⟨Option.some.inj hb, rfl⟩
  | appendU64 label x ta ha =>
    cases h2 with
    | appendU64 _ _ tb hb =>
      rw [ha] at hb
      exact ⟨Option.some.inj hb, rfl⟩
  | challengeBytes label ta outa ha =>
    cases h2 with
    | challengeBytes _ tb outb hb =>
      rw [ha] at hb
      have hin := Option.some.inj hb
      exact ⟨congrArg Prod.fst hin, congrArg (some ∘ Prod.snd) hin⟩

theorem steps_deterministic (H : HashFn) :
    ∀ (ops : List Op) (t t1 t2 : HashChainTranscript)
      (outs1 outs2 : List (List Nat)),
      Steps H t ops t1 outs1 → Steps H t ops t2 outs2 →
      t1 = t2 ∧ outs1 = outs2 := by
  intro ops
  induction ops with
  | nil =>
    intro t t1 t2 outs1 outs2 h1 h2
    cases h1
    cases h2
    exact ⟨rfl, rfl⟩
  | cons op ops ih =>
    intro t t1 t2 outs1 outs2 h1 h2
    cases h1 with
    | cons _ _ ta oa _ _ outsa hstepa hresta =>
      cases h2 with
      | cons _ _ tb ob _ _ outsb hstepb hrestb =>
        obtain ⟨hteq, hoeq⟩ := step_deterministic H t op ta tb oa ob hstepa hstepb
        subst hteq
        obtain ⟨hf, ho⟩ := ih ta t1 t2 outsa outsb hresta hrestb
        exact ⟨hf, by rw [ho, hoeq]⟩

/-- Claim C5: for a fixed sequence of operations with fixed arguments, two
independently constructed transcripts (seeded by `new` with the same label)
agree on the state after every step — in particular the initial and final
states — and produce byte-for-byte identical challenge outputs at every
`challenge_bytes` call: every operation is a deterministic function of its
arguments and the prior state. -/
theorem transcript_deterministic (H : HashFn) (label : List Nat)
    (ops : List Op) (ta tb tfa tfb : HashChainTranscript)
    (outsa outsb : List (List Nat))
    (h1 : HashChainTranscript.new H label = some ta)
    (h2 : HashChainTranscript.new H label = some tb)
    (h3 : Steps H ta ops tfa outsa)
    (h4 : Steps H tb ops tfb outsb) :
    ta = tb ∧ tfa = tfb ∧ outsa = outsb := by
  have hab : ta = tb := Option.some.inj (h1.symm.trans h2)
  subst hab
  obtain ⟨hf, ho⟩ := steps_deterministic H ops ta tfa tfb outsa outsb h3 h4
  exact ⟨rfl, hf, ho⟩

/-- Witness for `transcript_deterministic`: a concrete run seeded with the
empty label followed by one `challenge_bytes` call under `lenHash`. -/
theorem transcript_deterministic_witness :
    HashChainTranscript.new lenHash [] = some ⟨32 :: List.replicate 31 0⟩ ∧
    Steps lenHash ⟨32 :: List.replicate 31 0⟩ [Op.challengeBytes []]
      ⟨64 :: List.replicate 31 0⟩ [64 :: List.replicate 31 0] ∧
    ((⟨32 :: List.replicate 31 0⟩ : HashChainTranscript) =
        ⟨32 :: List.replicate 31 0⟩ ∧
      (⟨64 :: List.replicate 31 0⟩ : HashChainTranscript) =
        ⟨64 :: List.replicate 31 0⟩ ∧
      ([64 :: List.replicate 31 0] : List (List Nat)) =
        [64 :: List.replicate 31 0]) := by
  have hnew : HashChainTranscript.new lenHash [] =
      some ⟨32 :: List.replicate 31 0⟩ := by decide
  have hch : HashChainTranscript.challenge_bytes lenHash
      ⟨32 :: List.replicate 31 0⟩ [] (List.replicate 32 0) =
      some (⟨64 :: List.replicate 31 0⟩, 64 :: List.replicate 31 0) := by decide
  have hsteps : Steps lenHash ⟨32 :: List.replicate 31 0⟩ [Op.challengeBytes []]
      ⟨64 :: List.replicate 31 0⟩ [64 :: List.replicate 31 0] := by
    have h0 := Steps.cons _ (Op.challengeBytes []) _
      (some (64 :: List.replicate 31 0)) [] _ []
      (Step.challengeBytes _ [] _ _ hch) (Steps.nil _)
    simpa using h0
  exact ⟨hnew, hsteps,
    transcript_deterministic lenHash [] [Op.challengeBytes []] _ _ _ _ _ _
      hnew hnew hsteps hsteps⟩

/-! ## C8: fork isolation of `build_rng` -/

theorem runWorld_factors (H : HashFn) :
    ∀ (ops : List WOp) (a : HashChainTranscript) (r : HashChainTranscriptRng),
      runWorld H ⟨a, r⟩ ops =
        (runT1 H a ops).map fun tf =>
          ((⟨tf, (runRng H r ops).1⟩ : World), (runRng H r ops).2) := by
  intro ops
  induction ops with
  | nil => intro a r; rfl
  | cons op ops ih =>
    intro a r
    cases op with
    | appendT1 label msg =>
      cases ha : HashChainTranscript.append_message H a label msg with
      | none => simp [runWorld, wstep, runT1, runRng, ha]
      | some a2 =>
        simp only [runWorld, wstep, runT1, runRng, ha, Option.map_some']
        rw [ih a2 r]
        cases runT1 H a2 ops with
        | none => rfl
        | some tf => rfl
    | draw =>
      rw [show runWorld H ⟨a, r⟩ (WOp.draw :: ops) =
          match wstep H ⟨a, r⟩ WOp.draw with
          | none => none
          | some (w2, out) =>
            (runWorld H w2 ops).map fun p => (p.1, out ++ p.2) from rfl]
      rw [show wstep H ⟨a, r⟩ WOp.draw =
          (HashChainTranscriptRng.next_u64 H r).map
            fun p => (⟨a, p.1⟩, [p.2]) from rfl]
      rw [next_u64_eq]
      simp only [Option.map_some']
      rw [ih a ⟨⟨H.hash (pad_core lbl_next_u64 ++ r.transcript.state)⟩⟩]
      simp only [runT1, runRng]
      cases runT1 H a ops with
      | none => rfl
      | some tf => rfl

/-- Claim C8: `build_rng` clones the transcript state without mutating the
original, and afterwards the two objects are fully isolated: in any
interleaving of `append_message` calls on the live transcript with draws
from the finalized RNG, the RNG's final state and every drawn value are a
function of the RNG snapshot and the draws alone (`runRng` never reads the
live transcript), and the live transcript's evolution is a function of the
appends alone (`runT1` never reads the RNG). -/
theorem build_rng_fork_isolation (H : HashFn) (t a : HashChainTranscript)
    (r : HashChainTranscriptRng) (ops : List WOp) :
    (HashChainTranscript.build_rng t).transcript = t ∧
    runWorld H ⟨a, r⟩ ops =
      (runT1 H a ops).map fun tf =>
        ((⟨tf, (runRng H r ops).1⟩ : World), (runRng H r ops).2) :=
  ⟨rfl, runWorld_factors H ops a r⟩

/-! ## C4: what `fill_bytes` actually writes -/

theorem to_le_from_le (l : List Nat) (hb : ∀ b ∈ l, b < 256) :
    to_le_bytes l.length (from_le_bytes l) = l := by
  induction l with
  | nil => rfl
  | cons b tl ih =>
    have hb0 : b < 256 := hb b (by simp)
    have hbtl : ∀ y ∈ tl, y < 256 := fun y hy => hb y (by simp [hy])
    have h0 : from_le_bytes (b :: tl) % 256 = b := by
      show (b + 256 * from_le_bytes tl) % 256 = b
      rw [Nat.add_mul_mod_self_left]
      exact Nat.mod_eq_of_lt hb0
    have hs : ∀ i, from_le_bytes (b :: tl) / 256 ^ (i + 1) % 256 =
        from_le_bytes tl / 256 ^ i % 256 := by
      intro i
      show (b + 256 * from_le_bytes tl) / 256 ^ (i + 1) % 256 = _
      rw [pow_succ', ← Nat.div_div_eq_div_mul]
      congr 2
      rw [Nat.add_mul_div_left _ _ (by norm_num)]
      simp [Nat.div_eq_of_lt hb0]
    show to_le_bytes (tl.length + 1) (from_le_bytes (b :: tl)) = b :: tl
    unfold to_le_bytes
    rw [List.range_succ_eq_map, List.map_cons, List.map_map]
    congr 1
    · simpa using h0
    · have hfe : (fun i => from_le_bytes (b :: tl) / 256 ^ i % 256) ∘ Nat.succ =
          fun i => from_le_bytes tl / 256 ^ i % 256 := by
        funext i
        simpa using hs i
      rw [hfe]
      exact ih hbtl

theorem to_le_take (H : HashFn) (y : List Nat) (k : Nat) (hk : k ≤ 32) :
    to_le_bytes k (from_le_bytes ((H.hash y).take k)) = (H.hash y).take k := by
  have hlen : ((H.hash y).take k).length = k := by
    rw [List.length_take, H.hash_len]
    omega
  have h := to_le_from_le ((H.hash y).take k)
    (fun b hbmem => H.hash_bytes y b (List.take_subset _ _ hbmem))
  rwa [hlen] at h

theorem fill_bytes_add_eight (H : HashFn) (r : HashChainTranscriptRng) (m : Nat) :
    HashChainTranscriptRng.fill_bytes H r (m + 8) =
      (HashChainTranscriptRng.fill_bytes H
          ⟨⟨H.hash (pad_core lbl_next_u64 ++ r.transcript.state)⟩⟩ m).map
        fun p => (p.1,
          to_le_bytes 8 (from_le_bytes
            ((H.hash (pad_core lbl_next_u64 ++ r.transcript.state)).take 8)) ++ p.2) := by
  have h : HashChainTranscriptRng.fill_bytes H r (m + 8) =
      match r.next_u64 H with
      | none => none
      | some (r1, x) =>
        (HashChainTranscriptRng.fill_bytes H r1 m).map
          fun p => (p.1, to_le_bytes 8 x ++ p.2) := rfl
  rw [h, next_u64_eq]

theorem fill_bytes_small_u32 (H : HashFn) (r : HashChainTranscriptRng) (k : Nat)
    (h1 : 1 ≤ k) (h2 : k ≤ 4) :
    HashChainTranscriptRng.fill_bytes H r k =
      (r.next_u32 H).map fun p => (p.1, (to_le_bytes 4 p.2).take k) := by
  interval_cases k <;> rfl

theorem fill_bytes_small_u64 (H : HashFn) (r : HashChainTranscriptRng) (k : Nat)
    (h1 : 5 ≤ k) (h2 : k ≤ 7) :
    HashChainTranscriptRng.fill_bytes H r k =
      (r.next_u64 H).map fun p => (p.1, (to_le_bytes 8 p.2).take k) := by
  interval_cases k <;> rfl

theorem blocks_spec_add_eight (H : HashFn) (t : HashChainTranscript) (m : Nat) :
    fill_bytes_blocks_spec H t (m + 8) =
      ((fill_bytes_blocks_spec H ⟨H.hash (pad_core lbl_next_u64 ++ t.state)⟩ m).1,
        (H.hash (pad_core lbl_next_u64 ++ t.state)).take 8 ++
          (fill_bytes_blocks_spec H ⟨H.hash (pad_core lbl_next_u64 ++ t.state)⟩ m).2) := by
  unfold fill_bytes_blocks_spec
  have hdiv : (m + 8) / 8 = m / 8 + 1 := by omega
  have hmod : (m + 8) % 8 = m % 8 := by omega
  rw [hdiv, hmod]
  simp only [u64_block_chain]
  by_cases h0 : m % 8 = 0
  · simp [h0]
  · simp [h0, List.append_assoc]

/-- Claim C4 as stated is false on the code: `fill_bytes` does not write
consecutive full 32-byte challenge outputs.  Under `headHash`, filling an
8-byte destination writes the first 8 bytes of a `next_u64`-labelled
challenge (`[52, ...]`, 52 being the last label byte `'4'` that heads the
hash input), while drawing a 32-byte challenge block via the spec's
`next_u32`-style challenge mechanism and truncating it would write
`[50, ...]` (50 being `'2'`). -/
theorem fill_bytes_32_block_counterexample :
    (HashChainTranscriptRng.fill_bytes headHash ⟨⟨List.replicate 32 0⟩⟩ 8).map
        Prod.snd = some [52, 0, 0, 0, 0, 0, 0, 0] ∧
    (claimed_fill_bytes headHash ⟨⟨List.replicate 32 0⟩⟩ 8).map Prod.snd =
      some [50, 0, 0, 0, 0, 0, 0, 0] ∧
    ([52, 0, 0, 0, 0, 0, 0, 0] : List Nat) ≠ [50, 0, 0, 0, 0, 0, 0, 0] := by
  decide

/-- Claim C4 (amended): `fill_bytes` on a destination of length `n` always
succeeds and fills it in 8-byte blocks, not 32-byte ones: the `n / 8` full
blocks are the first-8-byte prefixes of consecutive chained 32-byte
challenge outputs drawn under label `next_u64`; a final partial block of
more than 4 bytes is one more such `next_u64` draw truncated, and a final
partial block of 1 to 4 bytes is the 4-byte prefix of a `next_u32`-labelled
challenge truncated; only the final block is truncated
(`fill_bytes_blocks_spec`). -/
theorem fill_bytes_blocks (H : HashFn) (r : HashChainTranscriptRng) (n : Nat) :
    HashChainTranscriptRng.fill_bytes H r n =
      some (⟨(fill_bytes_blocks_spec H r.transcript n).1⟩,
        (fill_bytes_blocks_spec H r.transcript n).2) := by
  induction n using Nat.strong_induction_on generalizing r with
  | _ n ih =>
    by_cases h8 : 8 ≤ n
    · obtain ⟨m, rfl⟩ : ∃ m, n = m + 8 := ⟨n - 8, by omega⟩
      rw [fill_bytes_add_eight, ih m (by omega), blocks_spec_add_eight]
      simp [to_le_take H (pad_core lbl_next_u64 ++ r.transcript.state) 8 (by norm_num)]
    · have hn8 : n % 8 = n := Nat.mod_eq_of_lt (by omega)
      have hd8 : n / 8 = 0 := Nat.div_eq_of_lt (by omega)
      rcases Nat.eq_zero_or_pos n with h0 | hpos
      · subst h0; rfl
      · by_cases h4 : 4 < n
        · rw [fill_bytes_small_u64 H r n (by omega) (by omega), next_u64_eq]
          simp only [Option.map_some']
          rw [to_le_take H (pad_core lbl_next_u64 ++ r.transcript.state) 8 (by norm_num)]
          rw [List.take_take]
          unfold fill_bytes_blocks_spec
          rw [hd8, hn8]
          simp only [u64_block_chain]
          rw [if_neg (by omega), if_pos h4]
          simp [show min n 8 = n by omega]
        · rw [fill_bytes_small_u32 H r n (by omega) (by omega), next_u32_eq]
          simp only [Option.map_some']
          rw [to_le_take H (pad_core lbl_next_u32 ++ r.transcript.state) 4 (by norm_num)]
          rw [List.take_take]
          unfold fill_bytes_blocks_spec
          rw [hd8, hn8]
          simp only [u64_block_chain]
          rw [if_neg (by omega), if_neg (by omega)]
          simp [show min n 4 = n by omega]

end HashChain
